import Mathlib

/-!
# Verification of the wordle-rs knowledge/strategy engine

Shallow embedding of the core of the `wordle-rs` repository:

* `take_guess` — the feedback oracle (`src/wordle_core/src/lib.rs`,
  two-pass scoring of a guess against a solution);
* `Knowledge` with `Knowledge.update` and `Knowledge.matches`
  (`src/wordle_ai/src/knowledge.rs`);
* the four guessing strategies (`random_guesser.rs`,
  `random_with_updates.rs`, `heuristic_guesser.rs`, `entropy_guesser.rs`).

Modelling conventions:

* A word (`[char; 5]` in Rust) is a function `Fin 5 → Char`.
* `HashSet<char>` becomes `Finset Char`; `HashMap<char, u8>` becomes an
  association list `List (Char × Nat)` with lookup defaulting to `0`
  (a missing entry and the entry `0` impose the same constraint, and
  the stored counts are at most `5`, so `u8` arithmetic never wraps).
* The strategies' random number generator is kept outside the state and
  supplied as an explicit choice function; `f64` scores are modelled as
  real numbers (hence the score definitions are not executable, exactly
  where the source computes with floating point logarithms).
* `&mut self` methods are state-passing functions; a method that writes
  no field returns the state unchanged.
-/

/-- Per-letter feedback (`LetterResult` in `wordle_core`). -/
inductive LetterResult where
  | Correct
  | Misplaced
  | Absent
  deriving DecidableEq, Repr

/-- A five-letter word (`[char; 5]`). -/
abbrev Word := Fin 5 → Char

/-- `true` on `Correct` and `Misplaced`: the statuses counted as positive
occurrences by `Knowledge::update`. -/
def isPositive : LetterResult → Bool
  | .Correct => true
  | .Misplaced => true
  | .Absent => false

/-- Number of occurrences of letter `c` in word `w`
(`word.iter().filter(|&&x| x == c).count()`). -/
def countLetter (w : Word) (c : Char) : Nat :=
  (List.finRange 5).countP (fun i => w i == c)

/-- First pass of `take_guess`: exact-position matches are `Correct`,
everything else starts as `Absent`. -/
def pass1Res (solution guess : Word) : Fin 5 → LetterResult :=
  fun i => if guess i = solution i then .Correct else .Absent

/-- First pass of `take_guess`: a solution slot is consumed (`solution_used`)
exactly where the guess matches it. -/
def pass1Used (solution guess : Word) : Fin 5 → Bool :=
  fun i => decide (guess i = solution i)

/-- The inner loop of the second pass: the first unconsumed solution slot
holding letter `c`, scanning left to right with a `break` on success. -/
def findSlot (solution : Word) (used : Fin 5 → Bool) (c : Char) : Option (Fin 5) :=
  (List.finRange 5).find? (fun j => !used j && (solution j == c))

/-- One iteration of the second pass of `take_guess` at guess position `i`:
skip `Correct` positions, otherwise mark `Misplaced` against the first
unconsumed matching solution slot, consuming it. -/
def pass2Step (solution guess : Word)
    (st : (Fin 5 → LetterResult) × (Fin 5 → Bool)) (i : Fin 5) :
    (Fin 5 → LetterResult) × (Fin 5 → Bool) :=
  if st.1 i = .Correct then st
  else
    match findSlot solution st.2 (guess i) with
    | some j => (Function.update st.1 i .Misplaced, Function.update st.2 j true)
    | none => st

/-- Full second-pass fold of `take_guess`, exposed so that lemmas can split
the iteration at a position. -/
def pass2 (solution guess : Word)
    (st : (Fin 5 → LetterResult) × (Fin 5 → Bool)) :
    (Fin 5 → LetterResult) × (Fin 5 → Bool) :=
  (List.finRange 5).foldl (pass2Step solution guess) st

/-- The feedback oracle `take_guess(solution, guess)` of `wordle_core`:
first pass marks exact matches, second pass greedily marks misplaced
letters against unconsumed solution slots. -/
def take_guess (solution guess : Word) : Fin 5 → LetterResult :=
  (pass2 solution guess (pass1Res solution guess, pass1Used solution guess)).1

/-- Per-letter positive count of `Knowledge::update`: how many positions of
this guess scored `Correct` or `Misplaced` for this exact letter value. -/
def positiveCounts (guess : Word) (result : Fin 5 → LetterResult) (c : Char) : Nat :=
  (List.finRange 5).countP (fun i => guess i == c && isPositive (result i))

/-- Number of consumed solution slots holding letter `c` (proof device for
the two-pass oracle). -/
def usedCount (solution : Word) (used : Fin 5 → Bool) (c : Char) : Nat :=
  (List.finRange 5).countP (fun j => used j && (solution j == c))

/-- The alphabet `('a'..='z')` used to initialise every position's possible
set in `Knowledge::new`. -/
def alphabet : Finset Char :=
  ((List.range 26).map (fun n => Char.ofNat (97 + n))).toFinset

/-- All five letters of the word are lowercase ASCII letters. -/
def LowercaseWord (w : Word) : Prop :=
  ∀ i, w i ∈ alphabet

instance (w : Word) : Decidable (LowercaseWord w) := by
  unfold LowercaseWord
  infer_instance

/-- Association-list lookup modelling `HashMap<char, u8>` access with a
missing entry read as `0` (`*positive_counts.get(&letter).unwrap_or(&0)`,
and a `must_contain` entry of `0` constrains nothing). -/
def mapGet : List (Char × Nat) → Char → Nat
  | [], _ => 0
  | (c', v) :: rest, c => if c' = c then v else mapGet rest c

/-- `entry(letter).and_modify(|prev| *prev = (*prev).max(count)).or_insert(count)`:
raise the entry for `c` to at least `n`, inserting it when missing. -/
def mapInsertMax : List (Char × Nat) → Char → Nat → List (Char × Nat)
  | [], c, n => [(c, n)]
  | (c', v) :: rest, c, n =>
    if c' = c then (c', max v n) :: rest else (c', v) :: mapInsertMax rest c n

/-- The `Knowledge` struct of `wordle_ai`. -/
structure Knowledge where
  possible_letters : Fin 5 → Finset Char
  must_contain : List (Char × Nat)
  fixed_positions : Fin 5 → Bool

/-- `Knowledge::new()`: every letter possible at every position, no
must-contain constraints, no fixed positions. -/
def Knowledge.new : Knowledge :=
  { possible_letters := fun _ => alphabet
    must_contain := []
    fixed_positions := fun _ => false }

/-- One iteration of the positional loop of `Knowledge::update` at
position `i`, acting on the pair (possible sets, fixed flags). -/
def updateStep (guess : Word) (result : Fin 5 → LetterResult) (pc : Char → Nat)
    (st : (Fin 5 → Finset Char) × (Fin 5 → Bool)) (i : Fin 5) :
    (Fin 5 → Finset Char) × (Fin 5 → Bool) :=
  match result i with
  | .Correct =>
    (Function.update st.1 i {guess i}, Function.update st.2 i true)
  | .Misplaced =>
    (Function.update st.1 i ((st.1 i).erase (guess i)), st.2)
  | .Absent =>
    if pc (guess i) = 0 then
      ((fun p => if st.2 p then st.1 p else (st.1 p).erase (guess i)), st.2)
    else
      (Function.update st.1 i ((st.1 i).erase (guess i)), st.2)

/-- The final loop of `Knowledge::update`: for every letter with a positive
count in this guess, raise its `must_contain` entry to that count. Iterating
the guess positions visits exactly the letters with positive counts (the
repeat application for a duplicated letter is the identity). -/
def applyPositiveCounts (guess : Word) (result : Fin 5 → LetterResult)
    (m : List (Char × Nat)) : List (Char × Nat) :=
  (List.finRange 5).foldl
    (fun m i =>
      if 0 < positiveCounts guess result (guess i) then
        mapInsertMax m (guess i) (positiveCounts guess result (guess i))
      else m) m

/-- `Knowledge::update(guess, result)`. -/
def Knowledge.update (k : Knowledge) (guess : Word)
    (result : Fin 5 → LetterResult) : Knowledge :=
  let st := (List.finRange 5).foldl
    (updateStep guess result (positiveCounts guess result))
    (k.possible_letters, k.fixed_positions)
  { possible_letters := st.1
    must_contain := applyPositiveCounts guess result k.must_contain
    fixed_positions := st.2 }

/-- `Knowledge::matches(word)`: every position's letter is still possible and
every `must_contain` entry is satisfied. -/
def Knowledge.matches (k : Knowledge) (w : Word) : Bool :=
  ((List.finRange 5).all fun i => decide (w i ∈ k.possible_letters i)) &&
    (k.must_contain.all fun q => decide (q.2 ≤ countLetter w q.1))

/-- The knowledge state reached from `Knowledge::new` by playing the guesses
`gs` in order against the fixed secret `sol`, feeding each update the
oracle's feedback (the documented lifecycle of a `Knowledge` instance). -/
def honestKnowledge (sol : Word) (gs : List Word) : Knowledge :=
  gs.foldl (fun k g => k.update g (take_guess sol g)) Knowledge.new

/-- `Iterator::max_by` over a list: the maximum under `f`, keeping the
**last** of equally-maximal elements (Rust's `max_by` prefers the later
element on ties); `none` on an empty iterator. -/
def maxByLast {α β : Type*} [LinearOrder β] (f : α → β) : List α → Option α
  | [] => none
  | x :: xs => some (xs.foldl (fun acc y => if f acc > f y then acc else y) x)

/-- The `entropy` helper of `heuristic_guesser.rs` with `f64` read as ℝ:
binary entropy, clamped to `0` outside `(0, 1)`. -/
noncomputable def entropyH (p : ℝ) : ℝ :=
  if p ≤ 0 ∨ 1 ≤ p then 0
  else -(p * Real.logb 2 p + (1 - p) * Real.logb 2 (1 - p))

/-- Whether word `w` contains letter `c` at least once. -/
def containsLetter (w : Word) (c : Char) : Bool :=
  (List.finRange 5).any (fun i => w i == c)

/-- The distinct letters of a word (`HashSet<char>` built from the word;
summation over it is order-independent in ℝ). -/
def wordUniqueLetters (w : Word) : List Char :=
  ((List.finRange 5).map w).dedup

/-- `calculate_letter_frequencies` at one letter: the fraction of candidate
words containing the letter (a letter in no candidate reads as `0.0` via
`unwrap_or(0.0)`). -/
noncomputable def letterFrequency (candidates : List Word) (c : Char) : ℝ :=
  (candidates.countP (fun w => containsLetter w c) : ℝ) / (candidates.length : ℝ)

/-- `HeuristicGuesser::score_word`: sum of letter-presence entropies over the
word's distinct letters. -/
noncomputable def score_word (candidates : List Word) (w : Word) : ℝ :=
  ((wordUniqueLetters w).map (fun c => entropyH (letterFrequency candidates c))).sum

/-- One term `-p * p.log2()` of the entropy sum. -/
noncomputable def negPLog (p : ℝ) : ℝ :=
  -(p * Real.logb 2 p)

/-- `EntropyGuesser::guess_entropy`: Shannon entropy of the distribution of
feedback patterns that `g` produces across the candidate set. -/
noncomputable def guess_entropy (candidates : List Word) (g : Word) : ℝ :=
  ((candidates.map (fun cand => take_guess cand g)).dedup.map (fun pat =>
    negPLog (((candidates.countP (fun cand => decide (take_guess cand g = pat))) : ℝ) /
      (candidates.length : ℝ)))).sum

/-- The `RandomGuesser` struct: index pool over the word list plus the
invalid-word ledger (its `StdRng` is supplied externally as a choice
function at each `make_guess` call). -/
structure RandomGuesser where
  wordlist : List Word
  available_indices : List Nat
  invalid_words : Finset Word

def RandomGuesser.new (wordlist : List Word) : RandomGuesser :=
  ⟨wordlist, List.range wordlist.length, ∅⟩

/-- `Vec::swap_remove(idx)`: overwrite position `idx` with the last element
and pop the last slot. -/
def swapRemoveAt (l : List Nat) (i : Nat) : List Nat :=
  (l.set i (l.getLastD 0)).dropLast

/-- The `while` loop of `RandomGuesser::make_guess`: draw a random index from
the pool without replacement until the drawn word is not invalid; `none` when
the pool empties. `choices t` supplies the `t`-th random draw. -/
def randomLoop (wordlist : List Word) (invalid : Finset Word) (choices : Nat → Nat) :
    Nat → List Nat → Option Word × List Nat
  | _, [] => (none, [])
  | t, a :: rest =>
    let avail := a :: rest
    let idx := choices t % avail.length
    let word_idx := avail.getD idx 0
    let remaining := swapRemoveAt avail idx
    let word := wordlist.getD word_idx (fun _ => 'a')
    if word ∈ invalid then randomLoop wordlist invalid choices (t + 1) remaining
    else (some word, remaining)
  termination_by _t avail => avail.length
  decreasing_by
    simp only [swapRemoveAt, List.length_dropLast, List.length_set, List.length_cons]
    omega

def RandomGuesser.make_guess (choices : Nat → Nat) (st : RandomGuesser) :
    Option Word × RandomGuesser :=
  let res := randomLoop st.wordlist st.invalid_words choices 0 st.available_indices
  (res.1, { st with available_indices := res.2 })

def RandomGuesser.update (st : RandomGuesser) (_guess : Word)
    (_result : Fin 5 → LetterResult) : RandomGuesser :=
  st

def RandomGuesser.mark_invalid (st : RandomGuesser) (w : Word) : RandomGuesser :=
  { st with invalid_words := insert w st.invalid_words }

def RandomGuesser.reset (st : RandomGuesser) : RandomGuesser :=
  { st with available_indices := List.range st.wordlist.length
            invalid_words := ∅ }

/-- The `RandomWithUpdates` struct (rng externalized). -/
structure RandomWithUpdates where
  wordlist : List Word
  knowledge : Knowledge
  invalid_words : Finset Word

def RandomWithUpdates.new (wordlist : List Word) : RandomWithUpdates :=
  ⟨wordlist, Knowledge.new, ∅⟩

/-- `RandomWithUpdates::get_candidates`. -/
def RandomWithUpdates.get_candidates (st : RandomWithUpdates) : List Word :=
  st.wordlist.filter fun w =>
    !(decide (w ∈ st.invalid_words)) && st.knowledge.matches w

/-- `RandomWithUpdates::make_guess`: a uniformly random candidate; the random
index drawn by the rng is supplied as `choice`. -/
def RandomWithUpdates.make_guess (choice : Nat) (st : RandomWithUpdates) :
    Option Word × RandomWithUpdates :=
  (match st.get_candidates with
    | [] => none
    | c :: cs => some ((c :: cs).getD (choice % (c :: cs).length) c),
   st)

def RandomWithUpdates.update (st : RandomWithUpdates) (guess : Word)
    (result : Fin 5 → LetterResult) : RandomWithUpdates :=
  { st with knowledge := st.knowledge.update guess result }

def RandomWithUpdates.mark_invalid (st : RandomWithUpdates) (w : Word) : RandomWithUpdates :=
  { st with invalid_words := insert w st.invalid_words }

def RandomWithUpdates.reset (st : RandomWithUpdates) : RandomWithUpdates :=
  { st with knowledge := Knowledge.new
            invalid_words := ∅ }

/-- The `HeuristicGuesser` struct. -/
structure HeuristicGuesser where
  wordlist : List Word
  knowledge : Knowledge
  invalid_words : Finset Word

def HeuristicGuesser.new (wordlist : List Word) : HeuristicGuesser :=
  ⟨wordlist, Knowledge.new, ∅⟩

/-- `HeuristicGuesser::get_candidates`. -/
def HeuristicGuesser.get_candidates (st : HeuristicGuesser) : List Word :=
  st.wordlist.filter fun w =>
    !(decide (w ∈ st.invalid_words)) && st.knowledge.matches w

/-- `HeuristicGuesser::make_guess`: score every candidate by `score_word`
over the candidate letter frequencies and take `max_by`. -/
noncomputable def HeuristicGuesser.make_guess (st : HeuristicGuesser) :
    Option Word × HeuristicGuesser :=
  (if st.get_candidates.isEmpty then none
   else maxByLast (score_word st.get_candidates) st.get_candidates,
   st)

def HeuristicGuesser.update (st : HeuristicGuesser) (guess : Word)
    (result : Fin 5 → LetterResult) : HeuristicGuesser :=
  { st with knowledge := st.knowledge.update guess result }

def HeuristicGuesser.mark_invalid (st : HeuristicGuesser) (w : Word) : HeuristicGuesser :=
  { st with invalid_words := insert w st.invalid_words }

def HeuristicGuesser.reset (st : HeuristicGuesser) : HeuristicGuesser :=
  { st with knowledge := Knowledge.new
            invalid_words := ∅ }

/-- The `EntropyGuesser` struct. -/
structure EntropyGuesser where
  wordlist : List Word
  knowledge : Knowledge
  invalid_words : Finset Word

def EntropyGuesser.new (wordlist : List Word) : EntropyGuesser :=
  ⟨wordlist, Knowledge.new, ∅⟩

/-- `EntropyGuesser::get_candidates`. -/
def EntropyGuesser.get_candidates (st : EntropyGuesser) : List Word :=
  st.wordlist.filter fun w =>
    !(decide (w ∈ st.invalid_words)) && st.knowledge.matches w

/-- `EntropyGuesser::make_guess` with the scoring function abstracted: empty
candidate set gives `none`, at most two candidates short-circuits to the
first candidate, otherwise `max_by` of the score over the non-invalid words
of the whole word list. -/
def entropyMakeGuessWith {β : Type*} [LinearOrder β] (score : List Word → Word → β)
    (st : EntropyGuesser) : Option Word × EntropyGuesser :=
  (match st.get_candidates with
    | [] => none
    | c :: cs =>
      if (c :: cs).length ≤ 2 then some c
      else maxByLast (score (c :: cs))
        (st.wordlist.filter fun w => !(decide (w ∈ st.invalid_words))),
   st)

/-- `EntropyGuesser::make_guess`. -/
noncomputable def EntropyGuesser.make_guess (st : EntropyGuesser) :
    Option Word × EntropyGuesser :=
  entropyMakeGuessWith guess_entropy st

def EntropyGuesser.update (st : EntropyGuesser) (guess : Word)
    (result : Fin 5 → LetterResult) : EntropyGuesser :=
  { st with knowledge := st.knowledge.update guess result }

def EntropyGuesser.mark_invalid (st : EntropyGuesser) (w : Word) : EntropyGuesser :=
  { st with invalid_words := insert w st.invalid_words }

def EntropyGuesser.reset (st : EntropyGuesser) : EntropyGuesser :=
  { st with knowledge := Knowledge.new
            invalid_words := ∅ }

/-- The win test of `Game::take_guess`:
`result.iter().all(|&r| r == LetterResult::Correct)`. -/
def gameIsWon (result : Fin 5 → LetterResult) : Bool :=
  (List.finRange 5).all fun i => result i == .Correct

example :
    take_guess !['a', 'x', 'a', 'x', 'a'] !['a', 'b', 'a', 'c', 'a'] =
      ![.Correct, .Absent, .Correct, .Absent, .Correct] := by decide

example :
    take_guess !['a', 'x', 'a', 'x', 'a'] !['a', 'a', 'y', 'a', 'a'] =
      ![.Correct, .Misplaced, .Absent, .Absent, .Correct] := by decide

example :
    take_guess !['a', 'b', 'c', 'd', 'e'] !['a', 'c', 'e', 'd', 'f'] =
      ![.Correct, .Misplaced, .Misplaced, .Correct, .Absent] := by decide

lemma countP_congr_mem {α : Type*} {p q : α → Bool} :
    ∀ {l : List α}, (∀ x ∈ l, p x = q x) → l.countP p = l.countP q := by
  intro l
  induction l with
  | nil => intro _; rfl
  | cons a l ih =>
    intro h
    rw [List.countP_cons, List.countP_cons, ih (fun x hx => h x (List.mem_cons_of_mem a hx)),
      h a (List.mem_cons_self a l)]

lemma countP_succ_of_flip {α : Type*} {p q : α → Bool} {i : α} :
    ∀ {l : List α}, l.Nodup → i ∈ l → p i = false → q i = true →
      (∀ x, x ≠ i → p x = q x) → l.countP q = l.countP p + 1 := by
  intro l
  induction l with
  | nil => intro _ hi; cases hi
  | cons a l ih =>
    intro hnd hi hp hq hagree
    rw [List.countP_cons, List.countP_cons]
    rcases List.mem_cons.mp hi with h | h
    · subst h
      have hne : ∀ x ∈ l, p x = q x := by
        intro x hx
        exact hagree x (fun hxi => (List.nodup_cons.mp hnd).1 (hxi ▸ hx))
      rw [countP_congr_mem hne, hp, hq]
      simp [Nat.add_comm]
    · have hai : a ≠ i := by
        rintro rfl
        exact (List.nodup_cons.mp hnd).1 h
      rw [ih (List.nodup_cons.mp hnd).2 h hp hq hagree, hagree a hai]
      omega

lemma finRange_split (i : Fin 5) :
    ∃ s t, List.finRange 5 = s ++ i :: t ∧ i ∉ s ∧ i ∉ t := by
  obtain ⟨s, t, h⟩ := List.append_of_mem (List.mem_finRange i)
  have hnd : (s ++ i :: t).Nodup := h ▸ List.nodup_finRange 5
  rw [List.nodup_append] at hnd
  exact ⟨s, t, h, fun hs => hnd.2.2 hs (List.mem_cons_self i t),
    (List.nodup_cons.mp hnd.2.1).1⟩

lemma pass2_foldl_res_frame (solution guess : Word) (i : Fin 5) :
    ∀ (l : List (Fin 5)) (st : (Fin 5 → LetterResult) × (Fin 5 → Bool)), i ∉ l →
      (l.foldl (pass2Step solution guess) st).1 i = st.1 i := by
  intro l
  induction l with
  | nil => intro st _; rfl
  | cons a l ih =>
    intro st hi
    have hia : i ≠ a := fun h => hi (h ▸ List.mem_cons_self a l)
    rw [List.foldl_cons, ih _ (fun h => hi (List.mem_cons_of_mem a h))]
    unfold pass2Step
    by_cases hc : st.1 a = .Correct
    · rw [if_pos hc]
    · rw [if_neg hc]
      cases hfind : findSlot solution st.2 (guess a) with
      | none => rfl
      | some j => simp [Function.update_noteq hia]

lemma pass2_foldl_used_mono (solution guess : Word) (j : Fin 5) :
    ∀ (l : List (Fin 5)) (st : (Fin 5 → LetterResult) × (Fin 5 → Bool)),
      st.2 j = true → (l.foldl (pass2Step solution guess) st).2 j = true := by
  intro l
  induction l with
  | nil => intro st h; exact h
  | cons a l ih =>
    intro st h
    rw [List.foldl_cons]
    refine ih _ ?_
    unfold pass2Step
    by_cases hc : st.1 a = .Correct
    · rw [if_pos hc]; exact h
    · rw [if_neg hc]
      cases hfind : findSlot solution st.2 (guess a) with
      | none => exact h
      | some j' =>
        by_cases hjj : j = j'
        · subst hjj; simp [Function.update_same]
        · simpa [Function.update_noteq hjj] using h

lemma pass2_foldl_correct_pres (solution guess : Word) (i : Fin 5) :
    ∀ (l : List (Fin 5)) (st : (Fin 5 → LetterResult) × (Fin 5 → Bool)),
      st.1 i = .Correct → (l.foldl (pass2Step solution guess) st).1 i = .Correct := by
  intro l
  induction l with
  | nil => intro st h; exact h
  | cons a l ih =>
    intro st h
    rw [List.foldl_cons]
    refine ih _ ?_
    unfold pass2Step
    by_cases hc : st.1 a = .Correct
    · rw [if_pos hc]; exact h
    · rw [if_neg hc]
      cases hfind : findSlot solution st.2 (guess a) with
      | none => exact h
      | some j =>
        have hia : i ≠ a := fun hh => hc (hh ▸ h)
        simpa [Function.update_noteq hia] using h

lemma pass2_foldl_count_inv (solution guess : Word) :
    ∀ (l : List (Fin 5)), l.Nodup →
      ∀ (st : (Fin 5 → LetterResult) × (Fin 5 → Bool)),
        (∀ i ∈ l, st.1 i ≠ .Misplaced) →
        (∀ c, positiveCounts guess st.1 c = usedCount solution st.2 c) →
        ∀ c, positiveCounts guess (l.foldl (pass2Step solution guess) st).1 c =
          usedCount solution (l.foldl (pass2Step solution guess) st).2 c := by
  intro l
  induction l with
  | nil => intro _ st _ h c; exact h c
  | cons a l ih =>
    intro hnd st hnm hcnt c
    rw [List.foldl_cons]
    have hnd' := List.nodup_cons.mp hnd
    by_cases hc : st.1 a = .Correct
    · have hstep : pass2Step solution guess st a = st := by
        unfold pass2Step; rw [if_pos hc]
      rw [hstep]
      exact ih hnd'.2 st (fun i hi => hnm i (List.mem_cons_of_mem a hi)) hcnt c
    · cases hfind : findSlot solution st.2 (guess a) with
      | none =>
        have hstep : pass2Step solution guess st a = st := by
          unfold pass2Step; rw [if_neg hc, hfind]
        rw [hstep]
        exact ih hnd'.2 st (fun i hi => hnm i (List.mem_cons_of_mem a hi)) hcnt c
      | some j =>
        have hstep : pass2Step solution guess st a =
            (Function.update st.1 a .Misplaced, Function.update st.2 j true) := by
          unfold pass2Step; rw [if_neg hc, hfind]
        have hj := List.find?_some hfind
        rw [Bool.and_eq_true, Bool.not_eq_true'] at hj
        have hjused : st.2 j = false := hj.1
        have hjsol : solution j = guess a := by
          have := hj.2; simpa using this
        have habs : st.1 a = .Absent := by
          cases h' : st.1 a with
          | Correct => exact absurd h' hc
          | Misplaced => exact absurd h' (hnm a (List.mem_cons_self a l))
          | Absent => rfl
        rw [hstep]
        refine ih hnd'.2 _ ?_ ?_ c
        · intro i hi
          have hia : i ≠ a := fun h => hnd'.1 (h ▸ hi)
          simpa [Function.update_noteq hia] using hnm i (List.mem_cons_of_mem a hi)
        · intro c'
          by_cases hca : c' = guess a
          · subst hca
            have hL : positiveCounts guess (Function.update st.1 a .Misplaced) (guess a) =
                positiveCounts guess st.1 (guess a) + 1 := by
              refine countP_succ_of_flip (List.nodup_finRange 5) (List.mem_finRange a) ?_ ?_ ?_
              · simp [habs, isPositive]
              · simp [Function.update_same, isPositive]
              · intro x hx; rw [Function.update_noteq hx]
            have hR : usedCount solution (Function.update st.2 j true) (guess a) =
                usedCount solution st.2 (guess a) + 1 := by
              refine countP_succ_of_flip (List.nodup_finRange 5) (List.mem_finRange j) ?_ ?_ ?_
              · simp [hjused]
              · simp [Function.update_same, hjsol]
              · intro x hx; rw [Function.update_noteq hx]
            rw [hL, hR, hcnt (guess a)]
          · have hL : positiveCounts guess (Function.update st.1 a .Misplaced) c' =
                positiveCounts guess st.1 c' := by
              refine countP_congr_mem ?_
              intro x _
              by_cases hxa : x = a
              · subst hxa
                have : (guess x == c') = false := by
                  simpa using Ne.symm hca
                simp [this]
              · rw [Function.update_noteq hxa]
            have hR : usedCount solution (Function.update st.2 j true) c' =
                usedCount solution st.2 c' := by
              refine countP_congr_mem ?_
              intro x _
              by_cases hxj : x = j
              · subst hxj
                have : (solution x == c') = false := by
                  rw [hjsol]
                  simpa using Ne.symm hca
                simp [this, hjused]
              · rw [Function.update_noteq hxj]
            rw [hL, hR, hcnt c']

lemma countP_le_countP {α : Type*} {p q : α → Bool} :
    ∀ l : List α, (∀ x ∈ l, p x = true → q x = true) → l.countP p ≤ l.countP q := by
  intro l
  induction l with
  | nil => intro _; exact Nat.le_refl _
  | cons a l ih =>
    intro h
    rw [List.countP_cons, List.countP_cons]
    have h1 := ih (fun x hx => h x (List.mem_cons_of_mem a hx))
    by_cases hp : p a = true
    · rw [hp, h a (List.mem_cons_self a l) hp]
      omega
    · rw [Bool.not_eq_true] at hp
      rw [hp]
      simp only [Bool.false_eq_true, if_false]
      omega

lemma pass2_initial_counts (solution guess : Word) (c : Char) :
    positiveCounts guess (pass1Res solution guess) c =
      usedCount solution (pass1Used solution guess) c := by
  refine countP_congr_mem ?_
  intro x _
  unfold pass1Res pass1Used
  by_cases h : guess x = solution x
  · rw [if_pos h]
    simp [isPositive, h]
  · rw [if_neg h]
    simp [isPositive, h]

lemma take_guess_counts (solution guess : Word) (c : Char) :
    positiveCounts guess (take_guess solution guess) c =
      usedCount solution (pass2 solution guess
        (pass1Res solution guess, pass1Used solution guess)).2 c := by
  unfold take_guess pass2
  refine pass2_foldl_count_inv solution guess _ (List.nodup_finRange 5) _ ?_ ?_ c
  · intro i _
    simp only [pass1Res]
    by_cases h : guess i = solution i
    · simp [h]
    · simp [h]
  · exact pass2_initial_counts solution guess

/-- Each letter's positive (`Correct`+`Misplaced`) count in the oracle feedback
never exceeds the letter's number of occurrences in the solution. -/
lemma take_guess_positive_le (solution guess : Word) (c : Char) :
    positiveCounts guess (take_guess solution guess) c ≤ countLetter solution c := by
  rw [take_guess_counts]
  unfold usedCount countLetter
  refine countP_le_countP _ ?_
  intro x _ hx
  rw [Bool.and_eq_true] at hx
  exact hx.2

/-- A position is scored `Correct` by the oracle exactly when the guess
matches the solution there. -/
lemma take_guess_correct_iff (solution guess : Word) (i : Fin 5) :
    take_guess solution guess i = .Correct ↔ guess i = solution i := by
  constructor
  · intro h
    by_contra hne
    obtain ⟨s, t, hsplit, hs, ht⟩ := finRange_split i
    unfold take_guess pass2 at h
    rw [hsplit, List.foldl_append, List.foldl_cons] at h
    set mid := s.foldl (pass2Step solution guess)
      (pass1Res solution guess, pass1Used solution guess) with hmid
    have hmi : mid.1 i = .Absent := by
      rw [hmid, pass2_foldl_res_frame solution guess i s _ hs]
      simp [pass1Res, hne]
    rw [pass2_foldl_res_frame solution guess i t _ ht] at h
    unfold pass2Step at h
    rw [if_neg (by rw [hmi]; intro hh; cases hh)] at h
    cases hfind : findSlot solution mid.2 (guess i) with
    | none => rw [hfind] at h; rw [hmi] at h; cases h
    | some j =>
      rw [hfind] at h
      simp only [Function.update_same] at h
      cases h
  · intro h
    unfold take_guess pass2
    refine pass2_foldl_correct_pres solution guess i _ _ ?_
    simp [pass1Res, h]

/-- If the oracle scores position `i` `Absent` and the letter `guess i` got no
positive score anywhere in the guess, then that letter does not occur in the
solution at all. -/
lemma take_guess_absent_not_in_solution (solution guess : Word) (i : Fin 5)
    (hA : take_guess solution guess i = .Absent)
    (h0 : positiveCounts guess (take_guess solution guess) (guess i) = 0) :
    countLetter solution (guess i) = 0 := by
  by_contra hne
  have hpos : 0 < countLetter solution (guess i) := Nat.pos_of_ne_zero hne
  unfold countLetter at hpos
  rw [List.countP_pos_iff] at hpos
  obtain ⟨j, _, hj⟩ := hpos
  have hjc : solution j = guess i := by simpa using hj
  have hused : (pass2 solution guess
      (pass1Res solution guess, pass1Used solution guess)).2 j = false := by
    have hcnt := take_guess_counts solution guess (guess i)
    rw [h0] at hcnt
    have := (List.countP_eq_zero).mp hcnt.symm j (List.mem_finRange j)
    rw [Bool.and_eq_true] at this
    by_contra hcon
    rw [Bool.not_eq_false] at hcon
    exact this ⟨hcon, by simpa using hjc⟩
  obtain ⟨s, t, hsplit, hs, ht⟩ := finRange_split i
  set init := (pass1Res solution guess, pass1Used solution guess) with hinit
  set mid := s.foldl (pass2Step solution guess) init with hmid
  have hmidused : mid.2 j = false := by
    by_contra hcon
    rw [Bool.not_eq_false] at hcon
    have : (pass2 solution guess init).2 j = true := by
      unfold pass2
      rw [hsplit, List.foldl_append]
      exact pass2_foldl_used_mono solution guess j (i :: t) mid hcon
    rw [this] at hused
    cases hused
  have hmi : mid.1 i = .Absent := by
    rw [hmid, pass2_foldl_res_frame solution guess i s _ hs, hinit]
    by_cases h : guess i = solution i
    · exfalso
      have : take_guess solution guess i = .Correct :=
        (take_guess_correct_iff solution guess i).mpr h
      rw [this] at hA
      cases hA
    · simp [pass1Res, h]
  have hfind : (findSlot solution mid.2 (guess i)).isSome := by
    unfold findSlot
    rw [List.find?_isSome]
    exact ⟨j, List.mem_finRange j, by simp [hmidused, hjc]⟩
  obtain ⟨j', hj'⟩ := Option.isSome_iff_exists.mp hfind
  have hfinal : take_guess solution guess i = .Misplaced := by
    unfold take_guess pass2
    rw [hsplit, List.foldl_append, List.foldl_cons, ← hinit, ← hmid,
      pass2_foldl_res_frame solution guess i t _ ht]
    unfold pass2Step
    rw [if_neg (by rw [hmi]; intro hh; cases hh), hj']
    simp [Function.update_same]
  rw [hfinal] at hA
  cases hA

example : Knowledge.new.matches !['h', 'e', 'l', 'l', 'o'] = true := by decide

example :
    ((Knowledge.new.update !['a', 'p', 'p', 'l', 'e']
      ![.Correct, .Absent, .Absent, .Absent, .Absent]).matches
        !['a', 'b', 'o', 'u', 't']) = true := by decide

example :
    ((Knowledge.new.update !['a', 'p', 'p', 'l', 'e']
      ![.Correct, .Absent, .Absent, .Absent, .Absent]).matches
        !['a', 'p', 'p', 'l', 'e']) = false := by decide

lemma mapGet_mapInsertMax (m : List (Char × Nat)) (c : Char) (n : Nat) (c' : Char) :
    mapGet (mapInsertMax m c n) c' =
      if c' = c then max (mapGet m c) n else mapGet m c' := by
  induction m with
  | nil =>
    by_cases h : c' = c
    · subst h
      simp [mapInsertMax, mapGet]
    · have h2 : ¬ c = c' := fun hh => h hh.symm
      simp [mapInsertMax, mapGet, h, h2]
  | cons a m ih =>
    obtain ⟨ac, av⟩ := a
    simp only [mapInsertMax]
    by_cases hac : ac = c
    · rw [if_pos hac]
      by_cases h : c' = c
      · have hacc : ac = c' := by rw [hac, h]
        simp [mapGet, hacc, h, hac]
      · have hacc : ¬ ac = c' := by rw [hac]; exact fun hh => h hh.symm
        simp [mapGet, hacc, h]
    · rw [if_neg hac]
      by_cases h : c' = c
      · have hacc : ¬ ac = c' := by intro hh; exact hac (by rw [hh, h])
        rw [h] at ih
        simp [mapGet, hacc, h, ih, hac]
      · by_cases hacc : ac = c'
        · simp [mapGet, hacc, h, ih]
        · simp [mapGet, hacc, h, ih]

lemma mem_mapInsertMax {m : List (Char × Nat)} {c : Char} {n : Nat} {q : Char × Nat} :
    q ∈ mapInsertMax m c n →
      q ∈ m ∨ (∃ v, (c, v) ∈ m ∧ q = (c, max v n)) ∨ q = (c, n) := by
  induction m with
  | nil =>
    intro h
    simp [mapInsertMax] at h
    exact Or.inr (Or.inr (by simp [h]))
  | cons a m ih =>
    obtain ⟨ac, av⟩ := a
    by_cases hac : ac = c
    · subst hac
      intro h
      simp only [mapInsertMax, if_pos rfl] at h
      rcases List.mem_cons.mp h with h | h
      · exact Or.inr (Or.inl ⟨av, List.mem_cons_self _ _, h⟩)
      · exact Or.inl (List.mem_cons_of_mem _ h)
    · intro h
      simp only [mapInsertMax, if_neg hac] at h
      rcases List.mem_cons.mp h with h | h
      · exact Or.inl (h ▸ List.mem_cons_self _ _)
      · rcases ih h with h | ⟨v, hv, hq⟩ | h
        · exact Or.inl (List.mem_cons_of_mem _ h)
        · exact Or.inr (Or.inl ⟨v, List.mem_cons_of_mem _ hv, hq⟩)
        · exact Or.inr (Or.inr h)

lemma applyPositiveCounts_bound (guess : Word) (result : Fin 5 → LetterResult)
    (f : Char → Nat) (hpc : ∀ c, positiveCounts guess result c ≤ f c) :
    ∀ (l : List (Fin 5)) (m : List (Char × Nat)), (∀ q ∈ m, q.2 ≤ f q.1) →
      ∀ q ∈ l.foldl
        (fun m i =>
          if 0 < positiveCounts guess result (guess i) then
            mapInsertMax m (guess i) (positiveCounts guess result (guess i))
          else m) m, q.2 ≤ f q.1 := by
  intro l
  induction l with
  | nil => intro m hm q hq; exact hm q hq
  | cons a l ih =>
    intro m hm
    rw [List.foldl_cons]
    refine ih _ ?_
    by_cases h : 0 < positiveCounts guess result (guess a)
    · rw [if_pos h]
      intro q hq
      rcases mem_mapInsertMax hq with hq | ⟨v, hv, hq⟩ | hq
      · exact hm q hq
      · subst hq
        simp only
        exact max_le (hm _ hv) (hpc _)
      · subst hq
        exact hpc _
    · rw [if_neg h]
      exact hm

lemma mapGet_applyPositiveCounts_ge (guess : Word) (result : Fin 5 → LetterResult) :
    ∀ (l : List (Fin 5)) (m : List (Char × Nat)) (c : Char),
      mapGet m c ≤ mapGet (l.foldl
        (fun m i =>
          if 0 < positiveCounts guess result (guess i) then
            mapInsertMax m (guess i) (positiveCounts guess result (guess i))
          else m) m) c := by
  intro l
  induction l with
  | nil => intro m c; exact Nat.le_refl _
  | cons a l ih =>
    intro m c
    rw [List.foldl_cons]
    refine Nat.le_trans ?_ (ih _ c)
    by_cases h : 0 < positiveCounts guess result (guess a)
    · rw [if_pos h, mapGet_mapInsertMax]
      by_cases hc : c = guess a
      · subst hc
        rw [if_pos rfl]
        exact Nat.le_max_left _ _
      · rw [if_neg hc]
    · rw [if_neg h]

lemma positiveCounts_pos_of (guess : Word) (result : Fin 5 → LetterResult)
    (q : Fin 5) (h : isPositive (result q) = true) :
    0 < positiveCounts guess result (guess q) := by
  unfold positiveCounts
  rw [List.countP_pos_iff]
  exact ⟨q, List.mem_finRange q, by simp [h]⟩

lemma updateFold_mem_sol (guess : Word) (result : Fin 5 → LetterResult)
    (pc : Char → Nat) (sol : Word)
    (hC : ∀ i, result i = .Correct ↔ guess i = sol i)
    (hA : ∀ i, result i = .Absent → pc (guess i) = 0 → ∀ p, sol p ≠ guess i) :
    ∀ (l : List (Fin 5)) (st : (Fin 5 → Finset Char) × (Fin 5 → Bool)),
      (∀ p, sol p ∈ st.1 p) →
      ∀ p, sol p ∈ (l.foldl (updateStep guess result pc) st).1 p := by
  intro l
  induction l with
  | nil => intro st h p; exact h p
  | cons a l ih =>
    intro st h
    rw [List.foldl_cons]
    refine ih _ ?_
    intro p
    unfold updateStep
    cases hr : result a with
    | Correct =>
      by_cases hpa : p = a
      · subst hpa
        simp only [Function.update_same]
        rw [Finset.mem_singleton]
        exact ((hC p).mp hr).symm
      · simpa [Function.update_noteq hpa] using h p
    | Misplaced =>
      by_cases hpa : p = a
      · subst hpa
        simp only [Function.update_same]
        rw [Finset.mem_erase]
        refine ⟨?_, h p⟩
        intro hcon
        have : result p = .Correct := (hC p).mpr hcon.symm
        rw [hr] at this
        cases this
      · simpa [Function.update_noteq hpa] using h p
    | Absent =>
      by_cases h0 : pc (guess a) = 0
      · rw [if_pos h0]
        simp only
        by_cases hfix : st.2 p
        · simpa [hfix] using h p
        · rw [Bool.not_eq_true] at hfix
          simp only [hfix, Bool.false_eq_true, if_false]
          rw [Finset.mem_erase]
          exact ⟨hA a hr h0 p, h p⟩
      · rw [if_neg h0]
        by_cases hpa : p = a
        · subst hpa
          simp only [Function.update_same]
          rw [Finset.mem_erase]
          refine ⟨?_, h p⟩
          intro hcon
          have : result p = .Correct := (hC p).mpr hcon.symm
          rw [hr] at this
          cases this
        · simpa [Function.update_noteq hpa] using h p

lemma updateFold_card_inv (guess : Word) (result : Fin 5 → LetterResult)
    (pc : Char → Nat) (pos0 : Fin 5 → Finset Char) :
    ∀ (l : List (Fin 5)) (st : (Fin 5 → Finset Char) × (Fin 5 → Bool)),
      (∀ p, st.1 p ⊆ pos0 p ∨
        (result p = .Correct ∧ st.1 p = {guess p} ∧ st.2 p = true)) →
      ∀ p, (l.foldl (updateStep guess result pc) st).1 p ⊆ pos0 p ∨
        (result p = .Correct ∧
          (l.foldl (updateStep guess result pc) st).1 p = {guess p} ∧
          (l.foldl (updateStep guess result pc) st).2 p = true) := by
  intro l
  induction l with
  | nil => intro st h p; exact h p
  | cons a l ih =>
    intro st h
    rw [List.foldl_cons]
    refine ih _ ?_
    intro p
    unfold updateStep
    cases hr : result a with
    | Correct =>
      by_cases hpa : p = a
      · subst hpa
        refine Or.inr ⟨hr, ?_, ?_⟩
        · simp [Function.update_same]
        · simp [Function.update_same]
      · rcases h p with h1 | ⟨h1, h2, h3⟩
        · exact Or.inl (by simpa [Function.update_noteq hpa] using h1)
        · exact Or.inr ⟨h1, by simpa [Function.update_noteq hpa] using h2,
            by simpa [Function.update_noteq hpa] using h3⟩
    | Misplaced =>
      by_cases hpa : p = a
      · subst hpa
        rcases h p with h1 | ⟨h1, _, _⟩
        · refine Or.inl ?_
          simp only [Function.update_same]
          exact Finset.Subset.trans (Finset.erase_subset _ _) h1
        · rw [hr] at h1; cases h1
      · rcases h p with h1 | ⟨h1, h2, h3⟩
        · exact Or.inl (by simpa [Function.update_noteq hpa] using h1)
        · exact Or.inr ⟨h1, by simpa [Function.update_noteq hpa] using h2, h3⟩
    | Absent =>
      by_cases h0 : pc (guess a) = 0
      · rw [if_pos h0]
        rcases h p with h1 | ⟨h1, h2, h3⟩
        · refine Or.inl ?_
          simp only
          by_cases hfix : st.2 p
          · simpa [hfix] using h1
          · rw [Bool.not_eq_true] at hfix
            simp only [hfix, Bool.false_eq_true, if_false]
            exact Finset.Subset.trans (Finset.erase_subset _ _) h1
        · refine Or.inr ⟨h1, ?_, h3⟩
          simp only [h3, if_true]
          exact h2
      · rw [if_neg h0]
        by_cases hpa : p = a
        · subst hpa
          rcases h p with h1 | ⟨h1, _, _⟩
          · refine Or.inl ?_
            simp only [Function.update_same]
            exact Finset.Subset.trans (Finset.erase_subset _ _) h1
          · rw [hr] at h1; cases h1
        · rcases h p with h1 | ⟨h1, h2, h3⟩
          · exact Or.inl (by simpa [Function.update_noteq hpa] using h1)
          · exact Or.inr ⟨h1, by simpa [Function.update_noteq hpa] using h2, h3⟩

lemma updateFold_fix_inv (guess : Word) (result : Fin 5 → LetterResult)
    (pc : Char → Nat) (fix0 : Fin 5 → Bool) :
    ∀ (l : List (Fin 5)) (st : (Fin 5 → Finset Char) × (Fin 5 → Bool)),
      (∀ p, st.2 p = true → fix0 p = true ∨
        (result p = .Correct ∧ st.1 p = {guess p})) →
      ∀ p, (l.foldl (updateStep guess result pc) st).2 p = true → fix0 p = true ∨
        (result p = .Correct ∧ (l.foldl (updateStep guess result pc) st).1 p = {guess p}) := by
  intro l
  induction l with
  | nil => intro st h p; exact h p
  | cons a l ih =>
    intro st h
    rw [List.foldl_cons]
    refine ih _ ?_
    intro p
    unfold updateStep
    cases hr : result a with
    | Correct =>
      by_cases hpa : p = a
      · subst hpa
        intro _
        refine Or.inr ⟨hr, ?_⟩
        simp [Function.update_same]
      · intro hp
        have hp2 : st.2 p = true := by
          simpa [Function.update_noteq hpa] using hp
        rcases h p hp2 with h1 | ⟨h1, h2⟩
        · exact Or.inl h1
        · refine Or.inr ⟨h1, ?_⟩
          simpa [Function.update_noteq hpa] using h2
    | Misplaced =>
      intro hp
      have hp2 : st.2 p = true := by simpa using hp
      rcases h p hp2 with h1 | ⟨h1, h2⟩
      · exact Or.inl h1
      · refine Or.inr ⟨h1, ?_⟩
        by_cases hpa : p = a
        · subst hpa
          rw [hr] at h1
          cases h1
        · simpa [Function.update_noteq hpa] using h2
    | Absent =>
      by_cases h0 : pc (guess a) = 0
      · rw [if_pos h0]
        intro hp
        have hp2 : st.2 p = true := by simpa using hp
        rcases h p hp2 with h1 | ⟨h1, h2⟩
        · exact Or.inl h1
        · refine Or.inr ⟨h1, ?_⟩
          simp only [hp2, if_true]
          exact h2
      · rw [if_neg h0]
        intro hp
        have hp2 : st.2 p = true := by simpa using hp
        rcases h p hp2 with h1 | ⟨h1, h2⟩
        · exact Or.inl h1
        · refine Or.inr ⟨h1, ?_⟩
          by_cases hpa : p = a
          · subst hpa
            rw [hr] at h1
            cases h1
          · simpa [Function.update_noteq hpa] using h2

lemma updateFold_notmem_pres (guess : Word) (result : Fin 5 → LetterResult)
    (pc : Char → Nat) (c : Char)
    (hcor : ∀ q, result q = .Correct → guess q ≠ c) :
    ∀ (l : List (Fin 5)) (st : (Fin 5 → Finset Char) × (Fin 5 → Bool)) (p : Fin 5),
      c ∉ st.1 p → c ∉ (l.foldl (updateStep guess result pc) st).1 p := by
  intro l
  induction l with
  | nil => intro st p h; exact h
  | cons a l ih =>
    intro st p h
    rw [List.foldl_cons]
    refine ih _ p ?_
    unfold updateStep
    cases hr : result a with
    | Correct =>
      by_cases hpa : p = a
      · subst hpa
        simp only [Function.update_same]
        rw [Finset.mem_singleton]
        exact fun hc => hcor p hr hc.symm
      · simpa [Function.update_noteq hpa] using h
    | Misplaced =>
      by_cases hpa : p = a
      · subst hpa
        simp only [Function.update_same]
        exact fun hc => h (Finset.mem_of_mem_erase hc)
      · simpa [Function.update_noteq hpa] using h
    | Absent =>
      by_cases h0 : pc (guess a) = 0
      · rw [if_pos h0]
        simp only
        by_cases hfix : st.2 p
        · simpa [hfix] using h
        · rw [Bool.not_eq_true] at hfix
          simp only [hfix, Bool.false_eq_true, if_false]
          exact fun hc => h (Finset.mem_of_mem_erase hc)
      · rw [if_neg h0]
        by_cases hpa : p = a
        · subst hpa
          simp only [Function.update_same]
          exact fun hc => h (Finset.mem_of_mem_erase hc)
        · simpa [Function.update_noteq hpa] using h

lemma updateFold_notmem_frame (guess : Word) (result : Fin 5 → LetterResult)
    (pc : Char → Nat) (c : Char) :
    ∀ (l : List (Fin 5)) (st : (Fin 5 → Finset Char) × (Fin 5 → Bool)) (p : Fin 5),
      p ∉ l → c ∉ st.1 p → c ∉ (l.foldl (updateStep guess result pc) st).1 p := by
  intro l
  induction l with
  | nil => intro st p _ h; exact h
  | cons a l ih =>
    intro st p hp h
    have hpa : p ≠ a := fun hh => hp (hh ▸ List.mem_cons_self a l)
    rw [List.foldl_cons]
    refine ih _ p (fun hh => hp (List.mem_cons_of_mem a hh)) ?_
    unfold updateStep
    cases hr : result a with
    | Correct => simpa [Function.update_noteq hpa] using h
    | Misplaced => simpa [Function.update_noteq hpa] using h
    | Absent =>
      by_cases h0 : pc (guess a) = 0
      · rw [if_pos h0]
        simp only
        by_cases hfix : st.2 p
        · simpa [hfix] using h
        · rw [Bool.not_eq_true] at hfix
          simp only [hfix, Bool.false_eq_true, if_false]
          exact fun hc => h (Finset.mem_of_mem_erase hc)
      · rw [if_neg h0]
        simpa [Function.update_noteq hpa] using h

lemma updateFold_mem_eq (guess : Word) (result : Fin 5 → LetterResult)
    (pc : Char → Nat) (c : Char) (p : Fin 5)
    (hrp : result p ≠ .Correct) (hgp : guess p ≠ c)
    (habs : ∀ q, result q = .Absent → pc (guess q) = 0 → guess q ≠ c) :
    ∀ (l : List (Fin 5)) (st : (Fin 5 → Finset Char) × (Fin 5 → Bool)),
      (c ∈ (l.foldl (updateStep guess result pc) st).1 p ↔ c ∈ st.1 p) := by
  intro l
  induction l with
  | nil => intro st; exact Iff.rfl
  | cons a l ih =>
    intro st
    rw [List.foldl_cons, ih]
    unfold updateStep
    cases hr : result a with
    | Correct =>
      by_cases hpa : p = a
      · subst hpa; exact absurd hr hrp
      · simp [Function.update_noteq hpa]
    | Misplaced =>
      by_cases hpa : p = a
      · subst hpa
        simp only [Function.update_same]
        rw [Finset.mem_erase]
        exact ⟨fun h => h.2, fun h => ⟨fun hh => hgp hh.symm, h⟩⟩
      · simp [Function.update_noteq hpa]
    | Absent =>
      by_cases h0 : pc (guess a) = 0
      · rw [if_pos h0]
        simp only
        by_cases hfix : st.2 p
        · simp [hfix]
        · rw [Bool.not_eq_true] at hfix
          simp only [hfix, Bool.false_eq_true, if_false]
          rw [Finset.mem_erase]
          have hga : guess a ≠ c := habs a hr h0
          exact ⟨fun h => h.2, fun h => ⟨fun hh => hga hh.symm, h⟩⟩
      · rw [if_neg h0]
        by_cases hpa : p = a
        · subst hpa
          simp only [Function.update_same]
          rw [Finset.mem_erase]
          exact ⟨fun h => h.2, fun h => ⟨fun hh => hgp hh.symm, h⟩⟩
        · simp [Function.update_noteq hpa]

lemma Knowledge.matches_iff (k : Knowledge) (w : Word) :
    k.matches w = true ↔
      (∀ i, w i ∈ k.possible_letters i) ∧
        (∀ q ∈ k.must_contain, q.2 ≤ countLetter w q.1) := by
  simp [Knowledge.matches, List.all_eq_true, List.mem_finRange]

lemma countLetter_eq_zero_iff (w : Word) (c : Char) :
    countLetter w c = 0 ↔ ∀ i, w i ≠ c := by
  unfold countLetter
  rw [List.countP_eq_zero]
  simp [List.mem_finRange]

/-- Honest feedback preserves `matches`: if a word still matches the
knowledge and the update's feedback is the oracle's answer for that very
word as secret, the word still matches afterwards. -/
lemma matches_update_honest (k : Knowledge) (sol g : Word)
    (h : k.matches sol = true) :
    (k.update g (take_guess sol g)).matches sol = true := by
  rw [Knowledge.matches_iff] at h ⊢
  obtain ⟨h1, h2⟩ := h
  constructor
  · intro p
    show sol p ∈ (k.update g (take_guess sol g)).possible_letters p
    unfold Knowledge.update
    simp only
    refine updateFold_mem_sol g (take_guess sol g) _ sol ?_ ?_ _ _ h1 p
    · intro i
      exact take_guess_correct_iff sol g i
    · intro i hri h0 p'
      have hz := take_guess_absent_not_in_solution sol g i hri h0
      rw [countLetter_eq_zero_iff] at hz
      exact hz p'
  · intro q hq
    show q.2 ≤ countLetter sol q.1
    unfold Knowledge.update at hq
    simp only at hq
    unfold applyPositiveCounts at hq
    exact applyPositiveCounts_bound g (take_guess sol g) (countLetter sol)
      (take_guess_positive_le sol g) _ _ h2 q hq

lemma new_matches_lowercase (sol : Word) (h : LowercaseWord sol) :
    Knowledge.new.matches sol = true := by
  rw [Knowledge.matches_iff]
  refine ⟨fun i => h i, ?_⟩
  intro q hq
  simp [Knowledge.new] at hq

lemma honestKnowledge_matches (sol : Word) (h : LowercaseWord sol) :
    ∀ (gs : List Word), (honestKnowledge sol gs).matches sol = true := by
  have aux : ∀ (gs : List Word) (k : Knowledge), k.matches sol = true →
      (gs.foldl (fun k g => k.update g (take_guess sol g)) k).matches sol = true := by
    intro gs
    induction gs with
    | nil => intro k hk; exact hk
    | cons g gs ih =>
      intro k hk
      rw [List.foldl_cons]
      exact ih _ (matches_update_honest k sol g hk)
  intro gs
  exact aux gs Knowledge.new (new_matches_lowercase sol h)

lemma swapRemoveAt_length (l : List Nat) (i : Nat) :
    (swapRemoveAt l i).length = l.length - 1 := by
  unfold swapRemoveAt
  rw [List.length_dropLast, List.length_set]

lemma getLastD_cons_mem (a : Nat) (l : List Nat) : (a :: l).getLastD 0 ∈ a :: l := by
  induction l generalizing a with
  | nil => simp [List.getLastD]
  | cons b l ih =>
    have : (a :: b :: l).getLastD 0 = (b :: l).getLastD 0 := by
      simp [List.getLastD]
    rw [this]
    exact List.mem_cons_of_mem a (ih b)

lemma mem_swapRemoveAt {l : List Nat} {i x : Nat} (h : x ∈ swapRemoveAt l i) : x ∈ l := by
  unfold swapRemoveAt at h
  have h1 : x ∈ l.set i (l.getLastD 0) := (List.dropLast_sublist _).mem h
  rcases List.mem_or_eq_of_mem_set h1 with h2 | h2
  · exact h2
  · subst h2
    cases l with
    | nil => simp at h1
    | cons a rest => exact getLastD_cons_mem a rest

lemma getLastD_eq_getElem_last (l : List Nat) (h : 0 < l.length) :
    l.getLastD 0 = l.getD (l.length - 1) 0 := by
  cases l with
  | nil => simp at h
  | cons a rest =>
    have hlt : (a :: rest).length - 1 < (a :: rest).length := by simp
    rw [List.getLastD_eq_getLast?, List.getLast?_eq_getElem?,
      List.getD_eq_getElem _ _ hlt, List.getElem?_eq_getElem hlt]
    simp

lemma swapRemove_partition {l : List Nat} {i : Nat} (hi : i < l.length) :
    ∀ x ∈ l, x = l.getD i 0 ∨ x ∈ swapRemoveAt l i := by
  intro x hx
  rw [List.mem_iff_getElem] at hx
  obtain ⟨pos, hpos, hval⟩ := hx
  by_cases hpi : pos = i
  · subst hpi
    left
    rw [List.getD_eq_getElem _ _ hpos]
    exact hval.symm
  · right
    by_cases hlast : pos = l.length - 1
    · have hil : i < (swapRemoveAt l i).length := by
        rw [swapRemoveAt_length]
        omega
      rw [List.mem_iff_getElem]
      refine ⟨i, hil, ?_⟩
      unfold swapRemoveAt
      rw [List.getElem_dropLast, List.getElem_set]
      rw [if_pos rfl, getLastD_eq_getElem_last l (by omega),
        List.getD_eq_getElem _ _ (by omega)]
      rw [← hval]
      congr 1
      omega
    · have hpl : pos < (swapRemoveAt l i).length := by
        rw [swapRemoveAt_length]
        omega
      rw [List.mem_iff_getElem]
      refine ⟨pos, hpl, ?_⟩
      unfold swapRemoveAt
      rw [List.getElem_dropLast, List.getElem_set_ne (fun hh => hpi hh.symm)]
      exact hval

lemma getD_mem_of_lt {l : List Nat} {i : Nat} (hi : i < l.length) : l.getD i 0 ∈ l := by
  rw [List.getD_eq_getElem _ _ hi]
  exact List.getElem_mem hi

/-- The drawing loop of `RandomGuesser::make_guess` returns `none` exactly
when every word still in the index pool has been marked invalid, whatever
random draws occur. -/
lemma randomLoop_none_iff (wordlist : List Word) (invalid : Finset Word)
    (choices : Nat → Nat) :
    ∀ (n : Nat) (avail : List Nat) (t : Nat), avail.length ≤ n →
      ((randomLoop wordlist invalid choices t avail).1 = none ↔
        ∀ i ∈ avail, wordlist.getD i (fun _ => 'a') ∈ invalid) := by
  intro n
  induction n with
  | zero =>
    intro avail t hlen
    have : avail = [] := List.length_eq_zero.mp (Nat.le_zero.mp hlen)
    subst this
    simp [randomLoop]
  | succ n ih =>
    intro avail t hlen
    cases avail with
    | nil => simp [randomLoop]
    | cons a rest =>
      rw [randomLoop]
      set idx := choices t % (a :: rest).length with hidx
      have hidxlt : idx < (a :: rest).length :=
        Nat.mod_lt _ (by simp)
      set chosen := (a :: rest).getD idx 0 with hchosen
      by_cases hw : wordlist.getD chosen (fun _ => 'a') ∈ invalid
      · rw [if_pos hw]
        have hrec := ih (swapRemoveAt (a :: rest) idx) (t + 1)
          (by rw [swapRemoveAt_length]; simp only [List.length_cons] at hlen ⊢; omega)
        rw [hrec]
        constructor
        · intro h i hi
          rcases swapRemove_partition hidxlt i hi with h2 | h2
          · rw [h2, ← hchosen]
            exact hw
          · exact h i h2
        · intro h i hi
          exact h i (mem_swapRemoveAt hi)
      · rw [if_neg hw]
        constructor
        · intro h
          exact absurd h (by simp)
        · intro h
          exact absurd (h chosen (getD_mem_of_lt hidxlt)) hw

lemma maxByLast_eq_none_iff {α β : Type*} [LinearOrder β] (f : α → β) (l : List α) :
    maxByLast f l = none ↔ l = [] := by
  cases l <;> simp [maxByLast]

/-- `max_by` over a nonempty list returns the last element attaining the
maximum: the list splits as `l1 ++ m :: l2` with every element `≤ m` and
every element after `m` strictly below it. -/
lemma maxByLast_cons_spec {α β : Type*} [LinearOrder β] (f : α → β) :
    ∀ (xs : List α) (x : α), ∃ (l1 l2 : List α) (m : α),
      maxByLast f (x :: xs) = some m ∧ x :: xs = l1 ++ m :: l2 ∧
      (∀ y ∈ x :: xs, f y ≤ f m) ∧ (∀ y ∈ l2, f y < f m) := by
  intro xs
  induction xs with
  | nil =>
    intro x
    refine ⟨[], [], x, rfl, rfl, ?_, by simp⟩
    intro y hy
    rw [List.mem_singleton] at hy
    subst hy
    exact le_refl _
  | cons y ys ih =>
    intro x
    have hstep : maxByLast f (x :: y :: ys) =
        maxByLast f ((if f x > f y then x else y) :: ys) := by
      simp [maxByLast, List.foldl_cons]
    by_cases hxy : f x > f y
    · rw [if_pos hxy] at hstep
      obtain ⟨l1, l2, m, h1, h2, h3, h4⟩ := ih x
      cases l1 with
      | nil =>
        simp only [List.nil_append] at h2
        have hm : x = m := (List.cons.injEq _ _ _ _).mp h2 |>.1
        have hl2 : ys = l2 := (List.cons.injEq _ _ _ _).mp h2 |>.2
        refine ⟨[], y :: ys, m, hstep ▸ h1, ?_, ?_, ?_⟩
        · simp only [List.nil_append]
          rw [← hm]
        · intro z hz
          rcases List.mem_cons.mp hz with hz | hz
          · subst hz; rw [← hm]
          · rcases List.mem_cons.mp hz with hz | hz
            · subst hz
              rw [← hm]
              exact le_of_lt hxy
            · exact h3 z (List.mem_cons_of_mem x (hl2 ▸ hz))
        · intro z hz
          rcases List.mem_cons.mp hz with hz | hz
          · subst hz
            rw [← hm]
            exact hxy
          · exact h4 z (hl2 ▸ hz)
      | cons a l1 =>
        simp only [List.cons_append] at h2
        have ha : x = a := (List.cons.injEq _ _ _ _).mp h2 |>.1
        have hrest : ys = l1 ++ m :: l2 := (List.cons.injEq _ _ _ _).mp h2 |>.2
        refine ⟨x :: y :: l1, l2, m, hstep ▸ h1, ?_, ?_, h4⟩
        · simp [hrest]
        · intro z hz
          rcases List.mem_cons.mp hz with hz | hz
          · subst hz
            exact h3 z (List.mem_cons_self _ _)
          · rcases List.mem_cons.mp hz with hz | hz
            · subst hz
              exact le_of_lt (lt_of_lt_of_le hxy (h3 x (List.mem_cons_self _ _)))
            · exact h3 z (List.mem_cons_of_mem x hz)
    · rw [if_neg hxy] at hstep
      obtain ⟨l1, l2, m, h1, h2, h3, h4⟩ := ih y
      refine ⟨x :: l1, l2, m, hstep ▸ h1, ?_, ?_, h4⟩
      · rw [List.cons_append, ← h2]
      · intro z hz
        rcases List.mem_cons.mp hz with hz | hz
        · subst hz
          exact le_trans (le_of_not_gt hxy) (h3 y (List.mem_cons_self _ _))
        · exact h3 z hz

/-- C1 (counterexample): the spec's repeated-letter example is wrong for the
code. Scoring guess `['a','b','a','c','a']` against secret
`['a','x','a','x','a']` does **not** give
`[Correct, Misplaced, Absent, Absent, Correct]`: positions 0, 2 and 4 are
exact matches, so the oracle returns
`[Correct, Absent, Correct, Absent, Correct]`. -/
theorem take_guess_spec_example_is_wrong :
    take_guess !['a', 'x', 'a', 'x', 'a'] !['a', 'b', 'a', 'c', 'a'] ≠
      ![.Correct, .Misplaced, .Absent, .Absent, .Correct] ∧
    take_guess !['a', 'x', 'a', 'x', 'a'] !['a', 'b', 'a', 'c', 'a'] =
      ![.Correct, .Absent, .Correct, .Absent, .Correct] :=
  ⟨by decide, by decide⟩

/-- C1 (amended): scoring guess `['a','b','a','c','a']` against secret
`['a','x','a','x','a']` returns `[Correct, Absent, Correct, Absent, Correct]`
under the two-pass algorithm; the feedback vector quoted by the spec,
`[Correct, Misplaced, Absent, Absent, Correct]`, is the oracle's answer for
guess `['a','a','y','a','a']` against that same secret (the repository's own
`test_take_guess_double_letters_at_start_and_end`). -/
theorem take_guess_repeated_letter_examples :
    take_guess !['a', 'x', 'a', 'x', 'a'] !['a', 'b', 'a', 'c', 'a'] =
      ![.Correct, .Absent, .Correct, .Absent, .Correct] ∧
    take_guess !['a', 'x', 'a', 'x', 'a'] !['a', 'a', 'y', 'a', 'a'] =
      ![.Correct, .Misplaced, .Absent, .Absent, .Correct] :=
  ⟨by decide, by decide⟩

/-- C10: the oracle returns five `Correct` statuses exactly when the guess
equals the solution, and the game's win test (`gameIsWon`, the
`is_won` check of `Game::take_guess`) accepts exactly those feedback
vectors. -/
theorem take_guess_all_correct_iff_eq (solution guess : Word) :
    (gameIsWon (take_guess solution guess) = true ↔ guess = solution) ∧
    (take_guess solution guess = (fun _ => .Correct) ↔ guess = solution) := by
  have key := take_guess_correct_iff solution guess
  constructor
  · unfold gameIsWon
    rw [List.all_eq_true]
    constructor
    · intro h
      funext i
      refine (key i).mp ?_
      have := h i (List.mem_finRange i)
      simpa using this
    · intro h
      intro i _
      subst h
      have := (key i).mpr rfl
      simp [this]
  · constructor
    · intro h
      funext i
      exact (key i).mp (congrFun h i)
    · intro h
      funext i
      subst h
      exact (key i).mpr rfl

/-- C4 (counterexample): with arbitrary feedback vectors the possible-set
cardinality is **not** monotone. Feedback `Correct` unconditionally collapses
a position to the singleton of the guessed letter, so after contradictory
feedback empties position 0 (`b` Correct at 0, then `b` Misplaced at 0), a
further `Correct` observation grows its cardinality from 0 back to 1. -/
theorem knowledge_possible_card_can_grow :
    ((((Knowledge.new.update (fun _ => 'b')
          ![.Correct, .Absent, .Absent, .Absent, .Absent]).update (fun _ => 'b')
          ![.Misplaced, .Absent, .Absent, .Absent, .Absent]).possible_letters 0).card = 0) ∧
    (((((Knowledge.new.update (fun _ => 'b')
          ![.Correct, .Absent, .Absent, .Absent, .Absent]).update (fun _ => 'b')
          ![.Misplaced, .Absent, .Absent, .Absent, .Absent]).update (fun _ => 'a')
          ![.Correct, .Absent, .Absent, .Absent, .Absent]).possible_letters 0).card = 1) :=
  ⟨by decide, by decide⟩

/-- C4 (amended): for a single `Knowledge.update` with feedback in which
every `Correct` position's letter is still possible there (true of all
honest oracle feedback along one game), every position's possible-set
cardinality does not increase; and with **no** hypothesis at all, every
letter's recorded `must_contain` lower bound does not decrease. -/
theorem knowledge_update_monotone (k : Knowledge) (g : Word)
    (r : Fin 5 → LetterResult)
    (h : ∀ i, r i = .Correct → g i ∈ k.possible_letters i) :
    (∀ p, ((k.update g r).possible_letters p).card ≤ (k.possible_letters p).card) ∧
    (∀ c, mapGet k.must_contain c ≤ mapGet (k.update g r).must_contain c) := by
  constructor
  · intro p
    have hinv := updateFold_card_inv g r (positiveCounts g r) k.possible_letters
      (List.finRange 5) (k.possible_letters, k.fixed_positions)
      (fun p => Or.inl (Finset.Subset.refl _)) p
    show ((k.update g r).possible_letters p).card ≤ (k.possible_letters p).card
    unfold Knowledge.update
    simp only
    rcases hinv with h1 | ⟨h1, h2, _⟩
    · exact Finset.card_le_card h1
    · rw [h2, Finset.card_singleton]
      exact Finset.card_pos.mpr ⟨g p, h p h1⟩
  · intro c
    show mapGet k.must_contain c ≤ mapGet (k.update g r).must_contain c
    unfold Knowledge.update applyPositiveCounts
    simp only
    exact mapGet_applyPositiveCounts_ge g r _ _ c

/-- Witness for `knowledge_update_monotone` at a concrete input. -/
theorem knowledge_update_monotone_witness :
    (∀ i, (![.Misplaced, .Absent, .Absent, .Absent, .Absent] : Fin 5 → LetterResult) i =
        .Correct → (fun _ => 'a' : Word) i ∈ Knowledge.new.possible_letters i) ∧
    (((Knowledge.new.update (fun _ => 'a')
        ![.Misplaced, .Absent, .Absent, .Absent, .Absent]).possible_letters 0).card ≤
      (Knowledge.new.possible_letters 0).card) ∧
    (mapGet Knowledge.new.must_contain 'a' ≤
      mapGet ((Knowledge.new.update (fun _ => 'a')
        ![.Misplaced, .Absent, .Absent, .Absent, .Absent]).must_contain) 'a') :=
  ⟨by decide,
    (knowledge_update_monotone Knowledge.new (fun _ => 'a')
      ![.Misplaced, .Absent, .Absent, .Absent, .Absent] (by decide)).1 0,
    (knowledge_update_monotone Knowledge.new (fun _ => 'a')
      ![.Misplaced, .Absent, .Absent, .Absent, .Absent] (by decide)).2 'a'⟩

/-- C3: `Knowledge.update`'s handling of an `Absent` position `i`. When the
letter `g i` had no positive occurrence in this guess, it is removed from
the possible set of every position that was not already fixed; when it had
a positive occurrence, it is removed from position `i`, while at any other
position that carries no removal signal of its own for this letter (not
`Correct`, not the same letter) membership of `g i` is untouched. -/
theorem knowledge_update_absent_cases (k : Knowledge) (g : Word)
    (r : Fin 5 → LetterResult) (i : Fin 5) (hA : r i = .Absent) :
    (positiveCounts g r (g i) = 0 →
      ∀ p, k.fixed_positions p = false →
        g i ∉ (k.update g r).possible_letters p) ∧
    (0 < positiveCounts g r (g i) →
      g i ∉ (k.update g r).possible_letters i ∧
        ∀ p, p ≠ i → r p ≠ .Correct → g p ≠ g i →
          (g i ∈ (k.update g r).possible_letters p ↔ g i ∈ k.possible_letters p)) := by
  constructor
  · intro h0 p hfp
    have hcor : ∀ q, r q = .Correct → g q ≠ g i := by
      intro q hq hgq
      have hpos := positiveCounts_pos_of g r q (by rw [hq]; rfl)
      rw [hgq, h0] at hpos
      exact Nat.lt_irrefl 0 hpos
    obtain ⟨s, t, hsplit, hs, ht⟩ := finRange_split i
    show g i ∉ (k.update g r).possible_letters p
    unfold Knowledge.update
    simp only
    rw [hsplit, List.foldl_append, List.foldl_cons]
    set st0 := ((k.possible_letters, k.fixed_positions) :
      (Fin 5 → Finset Char) × (Fin 5 → Bool)) with hst0
    set mid := s.foldl (updateStep g r (positiveCounts g r)) st0 with hmid
    have hstep : updateStep g r (positiveCounts g r) mid i =
        ((fun p => if mid.2 p then mid.1 p else (mid.1 p).erase (g i)), mid.2) := by
      unfold updateStep
      rw [hA, if_pos h0]
    rw [hstep]
    refine updateFold_notmem_pres g r _ (g i) hcor t _ p ?_
    by_cases hfix : mid.2 p = true
    · have hfi := updateFold_fix_inv g r (positiveCounts g r) k.fixed_positions s st0
        (fun p' hp' => Or.inl hp') p hfix
      rcases hfi with h1 | ⟨h1, h2⟩
      · rw [hfp] at h1
        cases h1
      · simp only [hfix, if_true]
        rw [← hmid] at h2
        rw [h2, Finset.mem_singleton]
        exact fun hh => hcor p h1 hh.symm
    · rw [Bool.not_eq_true] at hfix
      simp only [hfix, Bool.false_eq_true, if_false]
      exact Finset.not_mem_erase _ _
  · intro hpos
    constructor
    · obtain ⟨s, t, hsplit, hs, ht⟩ := finRange_split i
      show g i ∉ (k.update g r).possible_letters i
      unfold Knowledge.update
      simp only
      rw [hsplit, List.foldl_append, List.foldl_cons]
      set st0 := ((k.possible_letters, k.fixed_positions) :
        (Fin 5 → Finset Char) × (Fin 5 → Bool)) with hst0
      set mid := s.foldl (updateStep g r (positiveCounts g r)) st0 with hmid
      have hstep : updateStep g r (positiveCounts g r) mid i =
          (Function.update mid.1 i ((mid.1 i).erase (g i)), mid.2) := by
        unfold updateStep
        rw [hA, if_neg (by omega)]
      rw [hstep]
      refine updateFold_notmem_frame g r _ (g i) t _ i ht ?_
      simp only [Function.update_same]
      exact Finset.not_mem_erase _ _
    · intro p hpi hrp hgp
      show _ ↔ _
      unfold Knowledge.update
      simp only
      refine updateFold_mem_eq g r (positiveCounts g r) (g i) p hrp hgp ?_ _ _
      intro q hq h0 hgq
      rw [hgq] at h0
      rw [h0] at hpos
      exact Nat.lt_irrefl 0 hpos

/-- Witness for `knowledge_update_absent_cases` at a concrete input: a fully
absent guess of `z`s removes `z` everywhere. -/
theorem knowledge_update_absent_cases_witness :
    ((fun _ => 'z' : Word) 0 = 'z') ∧
    ('z' ∉ (Knowledge.new.update (fun _ => 'z')
      (fun _ => .Absent)).possible_letters 1) :=
  ⟨rfl,
    (knowledge_update_absent_cases Knowledge.new (fun _ => 'z')
      (fun _ => .Absent) 0 rfl).1 (by decide) 1 rfl⟩

/-- C2: along the documented lifecycle of a `Knowledge` instance — created by
`Knowledge::new` and updated once per played guess with the oracle's feedback
for the actual secret — one further update with
`take_guess secret guess` leaves `matches secret` true, for every lowercase
secret and guess and every history of prior guesses. -/
theorem knowledge_matches_secret_after_honest_update (secret guess : Word)
    (gs : List Word) (hsec : LowercaseWord secret) (_hg : LowercaseWord guess) :
    ((honestKnowledge secret gs).update guess
      (take_guess secret guess)).matches secret = true :=
  matches_update_honest _ secret guess (honestKnowledge_matches secret hsec gs)

/-- Witness for `knowledge_matches_secret_after_honest_update` at a concrete
input. -/
theorem knowledge_matches_secret_after_honest_update_witness :
    LowercaseWord !['h', 'e', 'l', 'l', 'o'] ∧
    LowercaseWord !['w', 'o', 'r', 'l', 'd'] ∧
    ((honestKnowledge !['h', 'e', 'l', 'l', 'o'] []).update !['w', 'o', 'r', 'l', 'd']
      (take_guess !['h', 'e', 'l', 'l', 'o'] !['w', 'o', 'r', 'l', 'd'])).matches
        !['h', 'e', 'l', 'l', 'o'] = true :=
  ⟨by decide, by decide,
    knowledge_matches_secret_after_honest_update !['h', 'e', 'l', 'l', 'o']
      !['w', 'o', 'r', 'l', 'd'] [] (by decide) (by decide)⟩

lemma random_make_guess_none_iff (choices : Nat → Nat) (st : RandomGuesser) :
    (st.make_guess choices).1 = none ↔
      ∀ i ∈ st.available_indices, st.wordlist.getD i (fun _ => 'a') ∈ st.invalid_words := by
  unfold RandomGuesser.make_guess
  exact randomLoop_none_iff st.wordlist st.invalid_words choices
    st.available_indices.length st.available_indices 0 (Nat.le_refl _)

lemma rwu_make_guess_none_iff (choice : Nat) (st : RandomWithUpdates) :
    (st.make_guess choice).1 = none ↔ st.get_candidates = [] := by
  unfold RandomWithUpdates.make_guess
  cases hc : st.get_candidates with
  | nil => simp
  | cons c cs => simp

lemma heuristic_make_guess_none_iff (st : HeuristicGuesser) :
    (st.make_guess).1 = none ↔ st.get_candidates = [] := by
  unfold HeuristicGuesser.make_guess
  simp only
  by_cases h : st.get_candidates.isEmpty
  · rw [if_pos h]
    rw [List.isEmpty_iff] at h
    simp [h]
  · rw [if_neg h]
    rw [List.isEmpty_iff] at h
    cases hc : st.get_candidates with
    | nil => exact absurd hc h
    | cons c cs => simp [maxByLast]

lemma entropy_make_guess_none_iff (st : EntropyGuesser) :
    (st.make_guess).1 = none ↔ st.get_candidates = [] := by
  unfold EntropyGuesser.make_guess entropyMakeGuessWith
  simp only
  cases hc : st.get_candidates with
  | nil => simp
  | cons c cs =>
    by_cases hlen : (c :: cs).length ≤ 2
    · have hlen2 : cs.length ≤ 1 := by simpa using hlen
      simp [hlen2]
    · have hcmem : c ∈ st.get_candidates := hc ▸ List.mem_cons_self c cs
      have hcf : c ∈ st.wordlist.filter (fun w => !(decide (w ∈ st.invalid_words))) := by
        unfold EntropyGuesser.get_candidates at hcmem
        rw [List.mem_filter] at hcmem ⊢
        rcases hcmem with ⟨hw, hb⟩
        rw [Bool.and_eq_true] at hb
        exact ⟨hw, hb.1⟩
      cases hf : st.wordlist.filter (fun w => !(decide (w ∈ st.invalid_words))) with
      | nil =>
        rw [hf] at hcf
        cases hcf
      | cons w ws =>
        have hlen2 : ¬ cs.length ≤ 1 := by simpa using hlen
        simp [hlen2, maxByLast]

/-- C5: each strategy's `make_guess` returns `none` exactly when its
candidate set is exhausted — for `RandomGuesser`, when every word still in
the index pool is marked invalid (whatever the random draws); for the three
knowledge strategies, when the knowledge-and-invalid-filtered candidate list
is empty. In particular, on the two-word list `[hello, world]` with both
words marked invalid, all four strategies return `none`. The embedded
methods are total functions, so no panic is possible at these call sites. -/
theorem make_guess_none_iff_exhausted :
    (∀ (choices : Nat → Nat) (st : RandomGuesser),
      (st.make_guess choices).1 = none ↔
        ∀ i ∈ st.available_indices,
          st.wordlist.getD i (fun _ => 'a') ∈ st.invalid_words) ∧
    (∀ (choice : Nat) (st : RandomWithUpdates),
      (st.make_guess choice).1 = none ↔ st.get_candidates = []) ∧
    (∀ st : HeuristicGuesser, (st.make_guess).1 = none ↔ st.get_candidates = []) ∧
    (∀ st : EntropyGuesser, (st.make_guess).1 = none ↔ st.get_candidates = []) ∧
    (∀ choices : Nat → Nat,
      ((((RandomGuesser.new [!['h', 'e', 'l', 'l', 'o'], !['w', 'o', 'r', 'l', 'd']]).mark_invalid
        !['h', 'e', 'l', 'l', 'o']).mark_invalid
        !['w', 'o', 'r', 'l', 'd']).make_guess choices).1 = none) ∧
    (∀ choice : Nat,
      ((((RandomWithUpdates.new [!['h', 'e', 'l', 'l', 'o'], !['w', 'o', 'r', 'l', 'd']]).mark_invalid
        !['h', 'e', 'l', 'l', 'o']).mark_invalid
        !['w', 'o', 'r', 'l', 'd']).make_guess choice).1 = none) ∧
    (((((HeuristicGuesser.new [!['h', 'e', 'l', 'l', 'o'], !['w', 'o', 'r', 'l', 'd']]).mark_invalid
        !['h', 'e', 'l', 'l', 'o']).mark_invalid
        !['w', 'o', 'r', 'l', 'd']).make_guess).1 = none) ∧
    (((((EntropyGuesser.new [!['h', 'e', 'l', 'l', 'o'], !['w', 'o', 'r', 'l', 'd']]).mark_invalid
        !['h', 'e', 'l', 'l', 'o']).mark_invalid
        !['w', 'o', 'r', 'l', 'd']).make_guess).1 = none) := by
  refine ⟨random_make_guess_none_iff, rwu_make_guess_none_iff,
    heuristic_make_guess_none_iff, entropy_make_guess_none_iff, ?_, ?_, ?_, ?_⟩
  · intro choices
    exact (random_make_guess_none_iff choices _).mpr (by decide)
  · intro choice
    exact (rwu_make_guess_none_iff choice _).mpr (by decide)
  · exact (heuristic_make_guess_none_iff _).mpr (by decide)
  · exact (entropy_make_guess_none_iff _).mpr (by decide)

/-- C6 (counterexample): on the word list
`[['a','a','a','b','c'], ['a','a','a','x','y']]` (the repository's own
tie test), both candidates attain the same maximal heuristic score, yet
`HeuristicGuesser::make_guess` returns the **second** word: Rust's
`Iterator::max_by` keeps the later of equally-maximal elements, so the claim
that the first such word in iteration order is returned is false. -/
theorem heuristic_tie_returns_second :
    ((HeuristicGuesser.new
        [!['a', 'a', 'a', 'b', 'c'], !['a', 'a', 'a', 'x', 'y']]).make_guess).1 =
      some !['a', 'a', 'a', 'x', 'y'] ∧
    score_word [!['a', 'a', 'a', 'b', 'c'], !['a', 'a', 'a', 'x', 'y']]
        !['a', 'a', 'a', 'b', 'c'] =
      score_word [!['a', 'a', 'a', 'b', 'c'], !['a', 'a', 'a', 'x', 'y']]
        !['a', 'a', 'a', 'x', 'y'] ∧
    (!['a', 'a', 'a', 'b', 'c'] : Word) ≠ !['a', 'a', 'a', 'x', 'y'] := by
  have hfa : letterFrequency
      [!['a', 'a', 'a', 'b', 'c'], !['a', 'a', 'a', 'x', 'y']] 'a' = 1 := by
    unfold letterFrequency
    rw [show ([!['a', 'a', 'a', 'b', 'c'], !['a', 'a', 'a', 'x', 'y']].countP
      fun w => containsLetter w 'a') = 2 from by decide]
    norm_num
  have hfb : letterFrequency
      [!['a', 'a', 'a', 'b', 'c'], !['a', 'a', 'a', 'x', 'y']] 'b' = 1 / 2 := by
    unfold letterFrequency
    rw [show ([!['a', 'a', 'a', 'b', 'c'], !['a', 'a', 'a', 'x', 'y']].countP
      fun w => containsLetter w 'b') = 1 from by decide]
    norm_num
  have hfc : letterFrequency
      [!['a', 'a', 'a', 'b', 'c'], !['a', 'a', 'a', 'x', 'y']] 'c' = 1 / 2 := by
    unfold letterFrequency
    rw [show ([!['a', 'a', 'a', 'b', 'c'], !['a', 'a', 'a', 'x', 'y']].countP
      fun w => containsLetter w 'c') = 1 from by decide]
    norm_num
  have hfx : letterFrequency
      [!['a', 'a', 'a', 'b', 'c'], !['a', 'a', 'a', 'x', 'y']] 'x' = 1 / 2 := by
    unfold letterFrequency
    rw [show ([!['a', 'a', 'a', 'b', 'c'], !['a', 'a', 'a', 'x', 'y']].countP
      fun w => containsLetter w 'x') = 1 from by decide]
    norm_num
  have hfy : letterFrequency
      [!['a', 'a', 'a', 'b', 'c'], !['a', 'a', 'a', 'x', 'y']] 'y' = 1 / 2 := by
    unfold letterFrequency
    rw [show ([!['a', 'a', 'a', 'b', 'c'], !['a', 'a', 'a', 'x', 'y']].countP
      fun w => containsLetter w 'y') = 1 from by decide]
    norm_num
  have hu1 : wordUniqueLetters !['a', 'a', 'a', 'b', 'c'] = ['a', 'b', 'c'] := by decide
  have hu2 : wordUniqueLetters !['a', 'a', 'a', 'x', 'y'] = ['a', 'x', 'y'] := by decide
  have hscore : score_word [!['a', 'a', 'a', 'b', 'c'], !['a', 'a', 'a', 'x', 'y']]
      !['a', 'a', 'a', 'b', 'c'] =
        score_word [!['a', 'a', 'a', 'b', 'c'], !['a', 'a', 'a', 'x', 'y']]
      !['a', 'a', 'a', 'x', 'y'] := by
    unfold score_word
    rw [hu1, hu2]
    simp [hfa, hfb, hfc, hfx, hfy]
  refine ⟨?_, hscore, by decide⟩
  have hcand : (HeuristicGuesser.new
      [!['a', 'a', 'a', 'b', 'c'], !['a', 'a', 'a', 'x', 'y']]).get_candidates =
      [!['a', 'a', 'a', 'b', 'c'], !['a', 'a', 'a', 'x', 'y']] := by decide
  show ((HeuristicGuesser.new
      [!['a', 'a', 'a', 'b', 'c'], !['a', 'a', 'a', 'x', 'y']]).make_guess).1 = _
  unfold HeuristicGuesser.make_guess
  rw [hcand]
  have hnotlt : ¬ (score_word [!['a', 'a', 'a', 'b', 'c'], !['a', 'a', 'a', 'x', 'y']]
      !['a', 'a', 'a', 'x', 'y'] <
        score_word [!['a', 'a', 'a', 'b', 'c'], !['a', 'a', 'a', 'x', 'y']]
      !['a', 'a', 'a', 'b', 'c']) := by
    rw [hscore]
    exact lt_irrefl _
  simp [maxByLast, hnotlt]

/-- C6 (amended): in `HeuristicGuesser::make_guess` and in
`EntropyGuesser::make_guess` (when more than two candidates remain), the
returned word attains the maximal score (respectively entropy) and is the
**last** word in iteration order to attain it — every word scanned after it
scores strictly lower (`Iterator::max_by` keeps the later of equal maxima). -/
theorem make_guess_tie_breaks_last :
    (∀ (st : HeuristicGuesser) (c : Word) (cs : List Word),
      st.get_candidates = c :: cs →
      ∃ (l1 l2 : List Word) (m : Word), (st.make_guess).1 = some m ∧
        c :: cs = l1 ++ m :: l2 ∧
        (∀ y ∈ c :: cs, score_word (c :: cs) y ≤ score_word (c :: cs) m) ∧
        (∀ y ∈ l2, score_word (c :: cs) y < score_word (c :: cs) m)) ∧
    (∀ (st : EntropyGuesser) (c : Word) (cs : List Word) (w : Word) (ws : List Word),
      st.get_candidates = c :: cs → 2 < (c :: cs).length →
      (st.wordlist.filter fun x => !(decide (x ∈ st.invalid_words))) = w :: ws →
      ∃ (l1 l2 : List Word) (m : Word), (st.make_guess).1 = some m ∧
        w :: ws = l1 ++ m :: l2 ∧
        (∀ y ∈ w :: ws, guess_entropy (c :: cs) y ≤ guess_entropy (c :: cs) m) ∧
        (∀ y ∈ l2, guess_entropy (c :: cs) y < guess_entropy (c :: cs) m)) := by
  constructor
  · intro st c cs hc
    obtain ⟨l1, l2, m, h1, h2, h3, h4⟩ := maxByLast_cons_spec (score_word (c :: cs)) cs c
    refine ⟨l1, l2, m, ?_, h2, h3, h4⟩
    unfold HeuristicGuesser.make_guess
    rw [hc]
    simp only [List.isEmpty_cons, if_false]
    exact h1
  · intro st c cs w ws hc hlen hf
    obtain ⟨l1, l2, m, h1, h2, h3, h4⟩ := maxByLast_cons_spec (guess_entropy (c :: cs)) ws w
    refine ⟨l1, l2, m, ?_, h2, h3, h4⟩
    unfold EntropyGuesser.make_guess entropyMakeGuessWith
    rw [hc]
    have hlen2 : ¬ (c :: cs).length ≤ 2 := by omega
    rw [hf]
    simp only [hlen2, if_false]
    exact h1

/-- Witness for `make_guess_tie_breaks_last` at concrete inputs: a single
candidate for the heuristic guesser, and a three-word list for the entropy
guesser. -/
theorem make_guess_tie_breaks_last_witness :
    (∃ (l1 l2 : List Word) (m : Word),
      ((HeuristicGuesser.new [!['h', 'e', 'l', 'l', 'o']]).make_guess).1 = some m ∧
        !['h', 'e', 'l', 'l', 'o'] :: ([] : List Word) = l1 ++ m :: l2 ∧
        (∀ y ∈ !['h', 'e', 'l', 'l', 'o'] :: ([] : List Word),
          score_word [!['h', 'e', 'l', 'l', 'o']] y ≤
            score_word [!['h', 'e', 'l', 'l', 'o']] m) ∧
        (∀ y ∈ l2, score_word [!['h', 'e', 'l', 'l', 'o']] y <
          score_word [!['h', 'e', 'l', 'l', 'o']] m)) ∧
    (∃ (l1 l2 : List Word) (m : Word),
      ((EntropyGuesser.new
        [!['a', 'b', 'a', 'b', 'a'], !['c', 'd', 'c', 'd', 'c'],
          !['e', 'f', 'e', 'f', 'e']]).make_guess).1 = some m ∧
        !['a', 'b', 'a', 'b', 'a'] ::
            [!['c', 'd', 'c', 'd', 'c'], !['e', 'f', 'e', 'f', 'e']] = l1 ++ m :: l2 ∧
        (∀ y ∈ !['a', 'b', 'a', 'b', 'a'] ::
            [!['c', 'd', 'c', 'd', 'c'], !['e', 'f', 'e', 'f', 'e']],
          guess_entropy [!['a', 'b', 'a', 'b', 'a'], !['c', 'd', 'c', 'd', 'c'],
            !['e', 'f', 'e', 'f', 'e']] y ≤
          guess_entropy [!['a', 'b', 'a', 'b', 'a'], !['c', 'd', 'c', 'd', 'c'],
            !['e', 'f', 'e', 'f', 'e']] m) ∧
        (∀ y ∈ l2,
          guess_entropy [!['a', 'b', 'a', 'b', 'a'], !['c', 'd', 'c', 'd', 'c'],
            !['e', 'f', 'e', 'f', 'e']] y <
          guess_entropy [!['a', 'b', 'a', 'b', 'a'], !['c', 'd', 'c', 'd', 'c'],
            !['e', 'f', 'e', 'f', 'e']] m)) :=
  ⟨make_guess_tie_breaks_last.1 (HeuristicGuesser.new [!['h', 'e', 'l', 'l', 'o']])
      !['h', 'e', 'l', 'l', 'o'] [] (by decide),
    make_guess_tie_breaks_last.2 (EntropyGuesser.new
      [!['a', 'b', 'a', 'b', 'a'], !['c', 'd', 'c', 'd', 'c'], !['e', 'f', 'e', 'f', 'e']])
      !['a', 'b', 'a', 'b', 'a']
      [!['c', 'd', 'c', 'd', 'c'], !['e', 'f', 'e', 'f', 'e']]
      !['a', 'b', 'a', 'b', 'a']
      [!['c', 'd', 'c', 'd', 'c'], !['e', 'f', 'e', 'f', 'e']]
      (by decide) (by decide) (by decide)⟩

/-- C7: when the knowledge-and-invalid-filtered candidate list of
`EntropyGuesser` has exactly one or two entries, `make_guess` short-circuits
to the first candidate in word-list order — a member of the candidate set —
and the returned value is the same for **every** scoring function, i.e. no
entropy computation over the word list influences it. -/
theorem entropy_short_circuit (st : EntropyGuesser) (c : Word) (cs : List Word)
    (hc : st.get_candidates = c :: cs) (hlen : cs.length ≤ 1) :
    (st.make_guess).1 = some c ∧ c ∈ st.get_candidates ∧
      ∀ {β : Type*} [LinearOrder β] (score : List Word → Word → β),
        (entropyMakeGuessWith score st).1 = some c := by
  refine ⟨?_, hc ▸ List.mem_cons_self c cs, ?_⟩
  · unfold EntropyGuesser.make_guess entropyMakeGuessWith
    rw [hc]
    simp [hlen]
  · intro β _ score
    unfold entropyMakeGuessWith
    rw [hc]
    simp [hlen]

/-- Witness for `entropy_short_circuit` at a concrete two-word list. -/
theorem entropy_short_circuit_witness :
    ((EntropyGuesser.new
      [!['h', 'e', 'l', 'l', 'o'], !['w', 'o', 'r', 'l', 'd']]).make_guess).1 =
        some !['h', 'e', 'l', 'l', 'o'] ∧
    !['h', 'e', 'l', 'l', 'o'] ∈ (EntropyGuesser.new
      [!['h', 'e', 'l', 'l', 'o'], !['w', 'o', 'r', 'l', 'd']]).get_candidates :=
  ⟨(entropy_short_circuit.{0} (EntropyGuesser.new
      [!['h', 'e', 'l', 'l', 'o'], !['w', 'o', 'r', 'l', 'd']])
      !['h', 'e', 'l', 'l', 'o'] [!['w', 'o', 'r', 'l', 'd']]
      (by decide) (by decide)).1,
    (entropy_short_circuit.{0} (EntropyGuesser.new
      [!['h', 'e', 'l', 'l', 'o'], !['w', 'o', 'r', 'l', 'd']])
      !['h', 'e', 'l', 'l', 'o'] [!['w', 'o', 'r', 'l', 'd']]
      (by decide) (by decide)).2.1⟩

/-- C8: for each of the four strategies, `reset()` yields exactly the state
of a freshly constructed strategy over the same word list (the rng lives
outside the modelled state), so the candidate universe and all subsequent
`make_guess` behaviour coincide with a fresh instance. -/
theorem reset_restores_fresh_state :
    (∀ st : RandomGuesser, st.reset = RandomGuesser.new st.wordlist) ∧
    (∀ st : RandomWithUpdates, st.reset = RandomWithUpdates.new st.wordlist) ∧
    (∀ st : HeuristicGuesser, st.reset = HeuristicGuesser.new st.wordlist) ∧
    (∀ st : EntropyGuesser, st.reset = EntropyGuesser.new st.wordlist) ∧
    (∀ (st : RandomGuesser) (choices : Nat → Nat),
      st.reset.make_guess choices = (RandomGuesser.new st.wordlist).make_guess choices) ∧
    (∀ st : RandomWithUpdates,
      st.reset.get_candidates = (RandomWithUpdates.new st.wordlist).get_candidates) ∧
    (∀ st : HeuristicGuesser,
      st.reset.make_guess = (HeuristicGuesser.new st.wordlist).make_guess) ∧
    (∀ st : EntropyGuesser,
      st.reset.make_guess = (EntropyGuesser.new st.wordlist).make_guess) :=
  ⟨fun _ => rfl, fun _ => rfl, fun _ => rfl, fun _ => rfl,
    fun _ _ => rfl, fun _ => rfl, fun _ => rfl, fun _ => rfl⟩

/-- C9: `make_guess` never mutates the strategy state of the three
knowledge-carrying strategies — in the source no field of `self` is assigned
in these methods — and in particular the `Knowledge` component
(`possible_letters`, `must_contain`, `fixed_positions`) is unchanged. -/
theorem make_guess_preserves_knowledge :
    (∀ (choice : Nat) (st : RandomWithUpdates),
      (st.make_guess choice).2.knowledge = st.knowledge ∧
        (st.make_guess choice).2 = st) ∧
    (∀ st : HeuristicGuesser,
      (st.make_guess).2.knowledge = st.knowledge ∧ (st.make_guess).2 = st) ∧
    (∀ st : EntropyGuesser,
      (st.make_guess).2.knowledge = st.knowledge ∧ (st.make_guess).2 = st) :=
  ⟨fun _ _ => ⟨rfl, rfl⟩, fun _ => ⟨rfl, rfl⟩, fun _ => ⟨rfl, rfl⟩⟩
